import Mathlib

/-!
Verification of the PFH5 pack-file reader (`src/pack_reader.py`).

Bytes are modelled as `List Nat` (each element a byte value); Python byte
strings, slices and `struct.unpack('<I', ...)` become list operations and
`le32`.  The cursor-based index-parsing loop of `read_file_index` becomes the
recursive function `parse_entries`, one constructor step per loop iteration;
Python's `break` statements become the branches returning the accumulated
list unchanged.  `bytes.decode('utf-8', errors='ignore')` is embedded as
`utf8DecodeIgnore` (codepoints of the valid UTF-8 sequences, invalid bytes
skipped).  All embedded functions are total, mirroring the fact that this
code path raises no exceptions.
-/

namespace PackReader

/-- `struct.unpack('<I', bs)[0]`: little-endian 32-bit read of the first four
list elements (the callers always pass exactly four bytes). -/
def le32 (bs : List Nat) : Nat :=
  bs.getD 0 0 + 256 * (bs.getD 1 0 + 256 * (bs.getD 2 0 + 256 * bs.getD 3 0))

/-- Index of the first zero byte of a list, as `bytes.find(b'\x00')` on the
whole string (`none` for Python's `-1`). -/
def findZeroIdx : List Nat → Option Nat
  | [] => none
  | b :: bs => if b = 0 then some 0 else (findZeroIdx bs).map (· + 1)

/-- `file_index_data.find(b'\x00', pos)`: first index `≥ pos` holding a zero
byte, `none` for Python's `-1`. -/
def findZero (d : List Nat) (pos : Nat) : Option Nat :=
  (findZeroIdx (d.drop pos)).map (pos + ·)

/-- Is `b` a UTF-8 continuation byte (0x80–0xBF)? -/
def isCont (b : Nat) : Bool := decide (128 ≤ b ∧ b ≤ 191)

/-- Allowed second byte of a three-byte UTF-8 sequence with lead `b`
(0xE0 narrows to 0xA0–0xBF, 0xED to 0x80–0x9F). -/
def cont2ok (b c : Nat) : Bool :=
  if b = 224 then decide (160 ≤ c ∧ c ≤ 191)
  else if b = 237 then decide (128 ≤ c ∧ c ≤ 159)
  else isCont c

/-- Allowed second byte of a four-byte UTF-8 sequence with lead `b`
(0xF0 narrows to 0x90–0xBF, 0xF4 to 0x80–0x8F). -/
def cont4ok (b c : Nat) : Bool :=
  if b = 240 then decide (144 ≤ c ∧ c ≤ 191)
  else if b = 244 then decide (128 ≤ c ∧ c ≤ 143)
  else isCont c

/-- Fuel-indexed body of `utf8DecodeIgnore`; each step consumes at least one
byte and one unit of fuel, so fuel equal to the input length suffices. -/
def utf8DecodeIgnoreFuel : Nat → List Nat → List Nat
  | 0, _ => []
  | _, [] => []
  | fuel + 1, b :: bs =>
    if b ≤ 127 then b :: utf8DecodeIgnoreFuel fuel bs
    else if 194 ≤ b ∧ b ≤ 223 then
      match bs with
      | [] => []
      | c :: bs2 =>
        if isCont c then ((b - 192) * 64 + (c - 128)) :: utf8DecodeIgnoreFuel fuel bs2
        else utf8DecodeIgnoreFuel fuel (c :: bs2)
    else if 224 ≤ b ∧ b ≤ 239 then
      match bs with
      | c :: d :: bs3 =>
        if cont2ok b c && isCont d then
          ((b - 224) * 4096 + (c - 128) * 64 + (d - 128)) :: utf8DecodeIgnoreFuel fuel bs3
        else utf8DecodeIgnoreFuel fuel (c :: d :: bs3)
      | [] => []
      | [c] => utf8DecodeIgnoreFuel fuel [c]
    else if 240 ≤ b ∧ b ≤ 244 then
      match bs with
      | c :: d :: e :: bs4 =>
        if cont4ok b c && isCont d && isCont e then
          ((b - 240) * 262144 + (c - 128) * 4096 + (d - 128) * 64 + (e - 128)) ::
            utf8DecodeIgnoreFuel fuel bs4
        else utf8DecodeIgnoreFuel fuel (c :: d :: e :: bs4)
      | [] => []
      | [c] => utf8DecodeIgnoreFuel fuel [c]
      | [c, d] => utf8DecodeIgnoreFuel fuel [c, d]
    else utf8DecodeIgnoreFuel fuel bs

/-- `bytes.decode('utf-8', errors='ignore')`: the codepoints of the maximal
valid UTF-8 sequences, with bytes not belonging to any valid sequence
skipped (producing nothing). -/
def utf8DecodeIgnore (l : List Nat) : List Nat := utf8DecodeIgnoreFuel l.length l

/-- Fuel-indexed body of `utf8DecodeReplace`. -/
def utf8DecodeReplaceFuel : Nat → List Nat → List Nat
  | 0, _ => []
  | _, [] => []
  | fuel + 1, b :: bs =>
    if b ≤ 127 then b :: utf8DecodeReplaceFuel fuel bs
    else if 194 ≤ b ∧ b ≤ 223 then
      match bs with
      | [] => [65533]
      | c :: bs2 =>
        if isCont c then ((b - 192) * 64 + (c - 128)) :: utf8DecodeReplaceFuel fuel bs2
        else 65533 :: utf8DecodeReplaceFuel fuel (c :: bs2)
    else if 224 ≤ b ∧ b ≤ 239 then
      match bs with
      | c :: d :: bs3 =>
        if cont2ok b c && isCont d then
          ((b - 224) * 4096 + (c - 128) * 64 + (d - 128)) :: utf8DecodeReplaceFuel fuel bs3
        else 65533 :: utf8DecodeReplaceFuel fuel (c :: d :: bs3)
      | [] => [65533]
      | [c] => 65533 :: utf8DecodeReplaceFuel fuel [c]
    else if 240 ≤ b ∧ b ≤ 244 then
      match bs with
      | c :: d :: e :: bs4 =>
        if cont4ok b c && isCont d && isCont e then
          ((b - 240) * 262144 + (c - 128) * 4096 + (d - 128) * 64 + (e - 128)) ::
            utf8DecodeReplaceFuel fuel bs4
        else 65533 :: utf8DecodeReplaceFuel fuel (c :: d :: e :: bs4)
      | [] => [65533]
      | [c] => 65533 :: utf8DecodeReplaceFuel fuel [c]
      | [c, d] => 65533 :: utf8DecodeReplaceFuel fuel [c, d]
    else 65533 :: utf8DecodeReplaceFuel fuel bs

/-- Modelled from the spec: decoding "with invalid sequences replaced rather
than rejected" — as `utf8DecodeIgnore`, but every skipped invalid portion
contributes a U+FFFD replacement character (65533) instead of vanishing.
Used only to compare the spec's wording with the source's
`errors='ignore'`. -/
def utf8DecodeReplace (l : List Nat) : List Nat := utf8DecodeReplaceFuel l.length l

/-- `PackFileEntry` (src/pack_reader.py lines 13–23): `path` holds the decoded
codepoints of the member path. -/
structure PackFileEntry where
  path : List Nat
  size : Nat
  offset : Nat
  timestamp : Option Nat
deriving Repr, DecidableEq

/-- The decoded header dictionary built by `PFH5Reader.read_header`
(src/pack_reader.py lines 78–93). -/
structure Header where
  preamble : List Nat
  pack_type : Nat
  type_bitmask : Nat
  flags : Nat
  pf_index_count : Nat
  pf_index_size : Nat
  file_index_count : Nat
  file_index_size : Nat
  timestamp : Nat
  signature_pos : Nat
  has_extended_header : Bool
  index_encrypted : Bool
  has_timestamps : Bool
  data_padded : Bool
deriving Repr, DecidableEq

/-- The four flag masks of `PFH5Reader` (src/pack_reader.py lines 37–40). -/
def FLAG_EXTENDED_HEADER : Nat := 0x100000

def FLAG_INDEX_ENCRYPTED : Nat := 0x008000

def FLAG_TIMESTAMP_IN_INDEX : Nat := 0x000400

def FLAG_DATA_PADDED : Nat := 0x000010

/-- The bytes of the magic tag `b'PFH5'`. -/
def PFH5magic : List Nat := [80, 70, 72, 53]

/-- `PFH5Reader.read_header` (src/pack_reader.py lines 51–95): read the first
32 bytes of the file, fail (`ValueError`, here `none`) when they are short or
the magic is wrong, otherwise unpack the seven little-endian fields and
decompose the type-and-flags bitmask. -/
def read_header (file : List Nat) : Option Header :=
  let header_data := file.take 32
  if header_data.length < 32 then none
  else if header_data.take 4 ≠ PFH5magic then none
  else
    let type_bitmask := le32 ((header_data.drop 4).take 4)
    let pack_type := type_bitmask &&& 0x0F
    let flags := type_bitmask &&& 0xFFFFFFF0
    some
      { preamble := header_data.take 4
        pack_type := pack_type
        type_bitmask := type_bitmask
        flags := flags
        pf_index_count := le32 ((header_data.drop 8).take 4)
        pf_index_size := le32 ((header_data.drop 12).take 4)
        file_index_count := le32 ((header_data.drop 16).take 4)
        file_index_size := le32 ((header_data.drop 20).take 4)
        timestamp := le32 ((header_data.drop 24).take 4)
        signature_pos := le32 ((header_data.drop 28).take 4)
        has_extended_header := flags &&& FLAG_EXTENDED_HEADER != 0
        index_encrypted := flags &&& FLAG_INDEX_ENCRYPTED != 0
        has_timestamps := flags &&& FLAG_TIMESTAMP_IN_INDEX != 0
        data_padded := flags &&& FLAG_DATA_PADDED != 0 }

/-- One iteration of the parsing loop of `read_file_index`
(src/pack_reader.py lines 127–147): scan to the next zero byte and decode the
path, read the 4-byte size, and, when the timestamp flag is set, the 4-byte
timestamp; `none` exactly where the Python loop hits a `break`.  On success,
returns the decoded fields and the cursor position after the record. -/
def parse_record (has_ts : Bool) (d : List Nat) (pos : Nat) :
    Option (List Nat × Nat × Option Nat × Nat) :=
  match findZero d pos with
  | none => none
  | some path_end =>
    let file_path := utf8DecodeIgnore ((d.drop pos).take (path_end - pos))
    let pos1 := path_end + 1
    if pos1 + 4 > d.length then none
    else
      let size := le32 ((d.drop pos1).take 4)
      let pos2 := pos1 + 4
      if has_ts then
        if pos2 + 4 > d.length then none
        else some (file_path, size, some (le32 ((d.drop pos2).take 4)), pos2 + 4)
      else some (file_path, size, none, pos2)

/-- The running-offset update after emitting an entry (src/pack_reader.py
lines 153–158): pad the size up to the next 8-byte boundary when the padding
flag is set, else advance by the size exactly. -/
def step_off (data_padded : Bool) (current_offset size : Nat) : Nat :=
  if data_padded then current_offset + ((size + 7) / 8) * 8
  else current_offset + size

/-- The `for _ in range(file_index_count)` loop of `read_file_index`
(src/pack_reader.py lines 119–158): at most `n` records are parsed from `d`
starting at cursor `pos`; the running data offset advances by the record's
size, rounded up to an 8-byte boundary when the padding flag is set; any
`break` (cursor at or past the end, or an incomplete record) ends the loop,
returning the entries accumulated so far. -/
def parse_entries (has_ts data_padded : Bool) (d : List Nat) :
    Nat → Nat → Nat → List PackFileEntry
  | 0, _, _ => []
  | Nat.succ n, pos, current_offset =>
    if d.length ≤ pos then []
    else
      match parse_record has_ts d pos with
      | none => []
      | some (file_path, size, ts, pos2) =>
        { path := file_path, size := size, offset := current_offset, timestamp := ts } ::
          parse_entries has_ts data_padded d n pos2
            (step_off data_padded current_offset size)

/-- Result of `read_file_index`: the entry list, whether the encrypted-index
warning was printed, and the computed `file_data_offset` field. -/
structure IndexResult where
  entries : List PackFileEntry
  encrypted_warning : Bool
  file_data_offset : Nat
deriving Repr, DecidableEq

/-- `header_size` as computed in `read_file_index` (src/pack_reader.py lines
108–110): 32 bytes, plus 20 when the extended-header flag is set. -/
def header_size (h : Header) : Nat :=
  if h.has_extended_header then 32 + 20 else 32

/-- The seek position of `read_file_index` before reading the member index
(src/pack_reader.py line 113): header plus the secondary (PF) index. -/
def index_skip (h : Header) : Nat := header_size h + h.pf_index_size

/-- The member-index bytes: `f.seek(index_skip)` then
`f.read(file_index_size)` (src/pack_reader.py lines 113–116); a short file
yields fewer bytes, exactly as Python's `read`. -/
def file_index_data (h : Header) (file : List Nat) : List Nat :=
  (file.drop (index_skip h)).take h.file_index_size

/-- `PFH5Reader.read_file_index` (src/pack_reader.py lines 97–165): when the
index is encrypted, print a warning and return no entries; otherwise parse up
to `file_index_count` records from the member-index bytes and record where
the file data region starts. -/
def read_file_index (h : Header) (file : List Nat) : IndexResult :=
  if h.index_encrypted then
    { entries := [], encrypted_warning := true, file_data_offset := 0 }
  else
    { entries :=
        parse_entries h.has_timestamps h.data_padded (file_index_data h file)
          h.file_index_count 0 0
      encrypted_warning := false
      file_data_offset := header_size h + h.pf_index_size + h.file_index_size }

/-- `PFH5Reader.extract_file` (src/pack_reader.py lines 178–194):
`f.seek(file_data_offset + entry.offset)` then `f.read(entry.size)` — a
positioned read that, like Python's `read`, returns fewer bytes when the file
ends early. -/
def extract_file (file_data_offset : Nat) (file : List Nat)
    (entry : PackFileEntry) : List Nat :=
  (file.drop (file_data_offset + entry.offset)).take entry.size

/-! ### `get_file_info` (src/pack_reader.py lines 196–222)

Python's insertion-ordered `extensions` dictionary is embedded as an
association list: `addEntryStats` updates the stats in place when the key is
already present and appends a fresh `{count: 1, size: …}` binding otherwise,
exactly as the `if ext not in extensions` block followed by the two
increments.  `Path(entry.path).suffix.lower()` is embedded over codepoint
lists: last `/`-separated component (empty and `.` components dropped, as in
`pathlib`), then the substring from the last dot when that dot is neither the
first nor the last character of the name, lowered ASCII-wise. -/

/-- The statistics value kept per extension: `{'count': …, 'size': …}`. -/
structure ExtStats where
  count : Nat
  size : Nat
deriving Repr, DecidableEq

/-- Index of the last occurrence of `x`, scanning like `str.rfind`. -/
def lastIdxOf (x : Nat) : List Nat → Option Nat
  | [] => none
  | b :: bs =>
    match lastIdxOf x bs with
    | some i => some (i + 1)
    | none => if b = x then some 0 else none

/-- `PurePath(path).name`: the last slash-separated component, with empty and
`.` components dropped. -/
def pyName (p : List Nat) : List Nat :=
  ((p.splitOn 47).filter (fun c => c ≠ [] ∧ c ≠ [46])).getLastD []

/-- `PurePath(path).suffix`: the part of the name from its last dot, when
that dot is neither the first nor the last character of the name. -/
def pySuffix (p : List Nat) : List Nat :=
  let name := pyName p
  match lastIdxOf 46 name with
  | none => []
  | some i => if 0 < i ∧ i + 1 < name.length then name.drop i else []

/-- ASCII lowering of one codepoint, as `str.lower` acts on ASCII. -/
def asciiLower (c : Nat) : Nat := if 65 ≤ c ∧ c ≤ 90 then c + 32 else c

/-- `Path(entry.path).suffix.lower()`. -/
def suffix_lower (p : List Nat) : List Nat := (pySuffix p).map asciiLower

/-- The codepoints of the sentinel key `'.no_extension'`. -/
def NO_EXT_KEY : List Nat := [46, 110, 111, 95, 101, 120, 116, 101, 110, 115, 105, 111, 110]

/-- The grouping key of an entry: its lowercased suffix, or `'.no_extension'`
when that is empty (src/pack_reader.py lines 206–208). -/
def ext_key (e : PackFileEntry) : List Nat :=
  let ext := suffix_lower e.path
  if ext = [] then NO_EXT_KEY else ext

/-- One loop iteration on the `extensions` dictionary (src/pack_reader.py
lines 210–214): create the binding if absent, then bump count and size. -/
def addEntryStats (m : List (List Nat × ExtStats)) (key : List Nat) (sz : Nat) :
    List (List Nat × ExtStats) :=
  match m with
  | [] => [(key, { count := 1, size := sz })]
  | (k, st) :: rest =>
    if k = key then (k, { count := st.count + 1, size := st.size + sz }) :: rest
    else (k, st) :: addEntryStats rest key sz

/-- Dictionary lookup in the association list. -/
def lookup_ext (k : List Nat) : List (List Nat × ExtStats) → Option ExtStats
  | [] => none
  | (k2, st) :: rest => if k2 = k then some st else lookup_ext k rest

/-- The summary dictionary built by `get_file_info` (header field omitted). -/
structure FileInfo where
  file_count : Nat
  total_size : Nat
  extensions : List (List Nat × ExtStats)
deriving Repr, DecidableEq

/-- `PFH5Reader.get_file_info` (src/pack_reader.py lines 196–222): fold over
the entries, grouping counts and sizes by extension key and accumulating the
total size. -/
def get_file_info (entries : List PackFileEntry) : FileInfo :=
  let acc := entries.foldl
    (fun (acc : List (List Nat × ExtStats) × Nat) e =>
      (addEntryStats acc.1 (ext_key e) e.size, acc.2 + e.size))
    ([], 0)
  { file_count := entries.length, total_size := acc.2, extensions := acc.1 }

/-! ### Synthetic archives

Specification-side machinery for stating round-trip properties: a member
record, its on-disk index encoding (null-terminated path, 4-byte
little-endian size, optional 4-byte timestamp), and the descriptor list the
decoder is expected to produce from a sequence of such records. -/

/-- A synthetic index record: raw path bytes, size and timestamp values. -/
structure MemberRec where
  path : List Nat
  size : Nat
  ts : Nat
deriving Repr, DecidableEq

/-- Well-formedness of a synthetic record: the path bytes are nonzero bytes,
and size and timestamp fit in 32 bits. -/
def WfRec (r : MemberRec) : Prop :=
  (∀ b ∈ r.path, b ≠ 0 ∧ b < 256) ∧ r.size < 4294967296 ∧ r.ts < 4294967296

instance (r : MemberRec) : Decidable (WfRec r) := by
  unfold WfRec; infer_instance

/-- Little-endian 4-byte encoding of a 32-bit value. -/
def encodeSize (n : Nat) : List Nat :=
  [n % 256, n / 256 % 256, n / 65536 % 256, n / 16777216 % 256]

/-- On-disk encoding of one index record. -/
def encodeRecord (hts : Bool) (r : MemberRec) : List Nat :=
  r.path ++ [0] ++ encodeSize r.size ++ (if hts then encodeSize r.ts else [])

/-- On-disk encoding of a record sequence, back to back. -/
def encodeIndex (hts : Bool) : List MemberRec → List Nat
  | [] => []
  | r :: rs => encodeRecord hts r ++ encodeIndex hts rs

/-- The descriptor list expected from decoding `recs` starting at data
offset `off`. -/
def entriesOf (hts dp : Bool) : List MemberRec → Nat → List PackFileEntry
  | [], _ => []
  | r :: rs, off =>
    { path := utf8DecodeIgnore r.path, size := r.size, offset := off,
      timestamp := if hts then some r.ts else none }
      :: entriesOf hts dp rs (step_off dp off r.size)

/-- The running offset after all of `recs` (the total padded data size when
started at 0). -/
def off_after (dp : Bool) : Nat → List MemberRec → Nat
  | off, [] => off
  | off, r :: rs => off_after dp (step_off dp off r.size) rs

/-- A member's contribution to the data region: its size, rounded up to an
8-byte boundary when the padding flag is set. -/
def pad_size (dp : Bool) (size : Nat) : Nat :=
  if dp then ((size + 7) / 8) * 8 else size

/-- `tail` cannot begin a complete record: it is empty, has no zero
terminator, or ends within the size (or, with the timestamp flag,
timestamp) field that follows its first zero byte. -/
def truncTail (hts : Bool) (tail : List Nat) : Bool :=
  tail.isEmpty ||
    (match findZeroIdx tail with
     | none => true
     | some i => decide (tail.length < i + 5) || (hts && decide (tail.length < i + 9)))

/-- The number of entries whose grouping key is `k`. -/
def group_count (k : List Nat) (l : List PackFileEntry) : Nat :=
  (l.filter (fun e => decide (ext_key e = k))).length

/-- The summed sizes of the entries whose grouping key is `k`. -/
def group_size (k : List Nat) (l : List PackFileEntry) : Nat :=
  ((l.filter (fun e => decide (ext_key e = k))).map (fun e => e.size)).sum

/-! ### Concrete archives used as witnesses and counterexamples -/

/-- The two records of the spec's concrete scenario: `a.txt` (3 bytes) and
`b.txt` (2 bytes). -/
def wRecs : List MemberRec :=
  [MemberRec.mk [97, 46, 116, 120, 116] 3 0, MemberRec.mk [98, 46, 116, 120, 116] 2 0]

/-- Header of the spec's concrete scenario: two members, no flags, a 20-byte
member index. -/
def wHeader : Header :=
  Header.mk [80, 70, 72, 53] 0 0 0 0 0 2 20 0 0 false false false false

/-- The spec's concrete scenario archive: header, index for `a.txt`/`b.txt`,
data region `foo` ++ `hi`. -/
def wFile : List Nat :=
  [80, 70, 72, 53] ++ [0, 0, 0, 0] ++ [0, 0, 0, 0] ++ [0, 0, 0, 0] ++ [2, 0, 0, 0]
    ++ [20, 0, 0, 0] ++ [0, 0, 0, 0] ++ [0, 0, 0, 0]
    ++ encodeIndex false wRecs ++ [102, 111, 111, 104, 105]

/-- Header declaring two members over an 8-byte index. -/
def c1Header : Header :=
  Header.mk [80, 70, 72, 53] 0 0 0 0 0 2 8 0 0 false false false false

/-- A truncated archive: the index holds one full record (`a`, size 3) and
then only `b\0` — the second record's size field is missing. -/
def c1File : List Nat :=
  [80, 70, 72, 53] ++ [0, 0, 0, 0] ++ [0, 0, 0, 0] ++ [0, 0, 0, 0] ++ [2, 0, 0, 0]
    ++ [8, 0, 0, 0] ++ [0, 0, 0, 0] ++ [0, 0, 0, 0]
    ++ [97, 0, 3, 0, 0, 0, 98, 0]

/-- Header with the index-encrypted flag (bit 15) set. -/
def c5Header : Header :=
  Header.mk [80, 70, 72, 53] 0 32768 32768 0 0 0 0 0 0 false true false false

/-- An archive whose type-and-flags bitmask has bit 15 (encrypted index)
set. -/
def c5File : List Nat :=
  [80, 70, 72, 53] ++ [0, 128, 0, 0] ++ List.replicate 24 0

/-- Header declaring one member over a 7-byte index. -/
def c8Header : Header :=
  Header.mk [80, 70, 72, 53] 0 0 0 0 0 1 7 0 0 false false false false

/-- An archive whose single member's path bytes `FF 61` are not valid
UTF-8. -/
def c8File : List Nat :=
  [80, 70, 72, 53] ++ [0, 0, 0, 0] ++ [0, 0, 0, 0] ++ [0, 0, 0, 0] ++ [1, 0, 0, 0]
    ++ [7, 0, 0, 0] ++ [0, 0, 0, 0] ++ [0, 0, 0, 0]
    ++ [255, 97, 0, 1, 0, 0, 0] ++ [42]

/-- An entry named `a.TXT`, 3 bytes. -/
def exInfoA : PackFileEntry := PackFileEntry.mk [97, 46, 84, 88, 84] 3 0 none

/-- An entry named `b.txt`, 2 bytes. -/
def exInfoB : PackFileEntry := PackFileEntry.mk [98, 46, 116, 120, 116] 2 3 none

/-! ### Helper lemmas -/

lemma findZeroIdx_of_no_zero (l : List Nat) (h : ∀ b ∈ l, b ≠ 0) :
    findZeroIdx l = none := by
  induction l with
  | nil => rfl
  | cons b bs ih =>
    have hb : b ≠ 0 := h b (by simp)
    simp only [findZeroIdx, if_neg hb]
    rw [ih (fun x hx => h x (by simp [hx]))]
    rfl

lemma findZeroIdx_append (p rest : List Nat) (hp : ∀ b ∈ p, b ≠ 0) :
    findZeroIdx (p ++ 0 :: rest) = some p.length := by
  induction p with
  | nil => simp [findZeroIdx]
  | cons b bs ih =>
    have hb : b ≠ 0 := hp b (by simp)
    have ih' := ih (fun x hx => hp x (by simp [hx]))
    simp [findZeroIdx, hb, ih']

lemma encodeSize_length (n : Nat) : (encodeSize n).length = 4 := rfl

lemma le32_encodeSize (n : Nat) (hn : n < 4294967296) : le32 (encodeSize n) = n := by
  simp only [le32, encodeSize, List.getD_cons_zero, List.getD_cons_succ]
  omega

lemma take4_encodeSize_append (n : Nat) (rest : List Nat) :
    (encodeSize n ++ rest).take 4 = encodeSize n := by
  have h := List.take_left (encodeSize n) rest
  rwa [encodeSize_length] at h

lemma encodeRecord_length (hts : Bool) (r : MemberRec) :
    (encodeRecord hts r).length = r.path.length + 5 + (if hts then 4 else 0) := by
  cases hts <;> simp [encodeRecord, encodeSize]

/-- Parsing at the start of an encoded record succeeds, produces its decoded
fields, and leaves the cursor right after the record. -/
lemma parse_record_encode (hts : Bool) (pre rest : List Nat) (r : MemberRec)
    (hwf : WfRec r) :
    parse_record hts (pre ++ (encodeRecord hts r ++ rest)) pre.length
      = some (utf8DecodeIgnore r.path, r.size,
          if hts then some r.ts else none,
          pre.length + (encodeRecord hts r).length) := by
  obtain ⟨hpath, hsize, hts32⟩ := hwf
  have hz : ∀ b ∈ r.path, b ≠ 0 := fun b hb => (hpath b hb).1
  have hdrop : (pre ++ (encodeRecord hts r ++ rest)).drop pre.length
      = encodeRecord hts r ++ rest := List.drop_left pre _
  have henc : encodeRecord hts r ++ rest
      = r.path ++ (0 :: (encodeSize r.size ++ ((if hts then encodeSize r.ts else []) ++ rest))) := by
    simp [encodeRecord]
  have hfind : findZero (pre ++ (encodeRecord hts r ++ rest)) pre.length
      = some (pre.length + r.path.length) := by
    unfold findZero
    rw [hdrop, henc, findZeroIdx_append _ _ hz]
    rfl
  have hdlen : (pre ++ (encodeRecord hts r ++ rest)).length
      = pre.length + ((encodeRecord hts r).length + rest.length) := by simp
  have hreclen := encodeRecord_length hts r
  have hslice : ((pre ++ (encodeRecord hts r ++ rest)).drop pre.length).take
      (pre.length + r.path.length - pre.length) = r.path := by
    rw [hdrop, henc]
    have h4 : pre.length + r.path.length - pre.length = r.path.length := by omega
    rw [h4]
    exact List.take_left r.path _
  have hd2 : pre ++ (encodeRecord hts r ++ rest)
      = (pre ++ r.path ++ [0])
        ++ (encodeSize r.size ++ ((if hts then encodeSize r.ts else []) ++ rest)) := by
    simp [encodeRecord]
  have hd2len : (pre ++ r.path ++ [0]).length = pre.length + r.path.length + 1 := by
    simp [Nat.add_assoc]
  have hdropsz : (pre ++ (encodeRecord hts r ++ rest)).drop (pre.length + r.path.length + 1)
      = encodeSize r.size ++ ((if hts then encodeSize r.ts else []) ++ rest) := by
    rw [hd2, ← hd2len]
    exact List.drop_left _ _
  cases hts with
  | false =>
    have hnogt : ¬ (pre.length + r.path.length + 1 + 4
        > (pre ++ (encodeRecord false r ++ rest)).length) := by
      rw [hdlen, hreclen]; simp; omega
    simp only [parse_record, hfind, hslice, hnogt, if_neg, if_false,
      Bool.false_eq_true, hdropsz]
    rw [take4_encodeSize_append, le32_encodeSize r.size hsize]
    simp only [Option.some.injEq, Prod.mk.injEq, hreclen, true_and, and_true,
      if_neg, Bool.false_eq_true, if_false, eq_self_iff_true]
    omega
  | true =>
    have hnogt : ¬ (pre.length + r.path.length + 1 + 4
        > (pre ++ (encodeRecord true r ++ rest)).length) := by
      rw [hdlen, hreclen]; simp; omega
    have hnogt2 : ¬ (pre.length + r.path.length + 1 + 4 + 4
        > (pre ++ (encodeRecord true r ++ rest)).length) := by
      rw [hdlen, hreclen]; simp; omega
    have hd3 : pre ++ (encodeRecord true r ++ rest)
        = (pre ++ r.path ++ [0] ++ encodeSize r.size) ++ (encodeSize r.ts ++ rest) := by
      simp [encodeRecord]
    have hd3len : (pre ++ r.path ++ [0] ++ encodeSize r.size).length
        = pre.length + r.path.length + 1 + 4 := by
      simp [encodeSize, Nat.add_assoc]
    have hdropts : (pre ++ (encodeRecord true r ++ rest)).drop
        (pre.length + r.path.length + 1 + 4) = encodeSize r.ts ++ rest := by
      rw [hd3, ← hd3len]
      exact List.drop_left _ _
    simp only [parse_record, hfind, hslice, hnogt, hnogt2, if_neg, if_false, if_true,
      hdropsz, hdropts]
    rw [take4_encodeSize_append, le32_encodeSize r.size hsize]
    have hts' : (encodeSize r.ts ++ rest).take 4 = encodeSize r.ts :=
      take4_encodeSize_append r.ts rest
    rw [hts', le32_encodeSize r.ts hts32]
    simp only [Option.some.injEq, Prod.mk.injEq, hreclen, true_and, and_true,
      if_true, eq_self_iff_true]
    omega

/-- Parsing a count of `recs.length + m` over the encoding of `recs` (after
an arbitrary prefix, before an arbitrary tail) yields exactly the expected
entries for `recs` followed by whatever the remaining count parses from the
tail position. -/
lemma parse_entries_encode (hts dp : Bool) (recs : List MemberRec) :
    ∀ (m : Nat) (pre tail : List Nat) (off : Nat),
      (∀ r ∈ recs, WfRec r) →
      parse_entries hts dp (pre ++ (encodeIndex hts recs ++ tail))
          (recs.length + m) pre.length off
        = entriesOf hts dp recs off
          ++ parse_entries hts dp (pre ++ (encodeIndex hts recs ++ tail)) m
              (pre.length + (encodeIndex hts recs).length) (off_after dp off recs) := by
  induction recs with
  | nil =>
    intro m pre tail off _
    simp [encodeIndex, entriesOf, off_after]
  | cons r rs ih =>
    intro m pre tail off hwf
    have hwfr : WfRec r := hwf r (by simp)
    have hwfs : ∀ x ∈ rs, WfRec x := fun x hx => hwf x (by simp [hx])
    have hd : pre ++ (encodeIndex hts (r :: rs) ++ tail)
        = pre ++ (encodeRecord hts r ++ (encodeIndex hts rs ++ tail)) := by
      simp [encodeIndex]
    rw [hd]
    have hcount : (r :: rs).length + m = (rs.length + m) + 1 := by
      simp [List.length_cons]; omega
    rw [hcount]
    have hrl := encodeRecord_length hts r
    have hlen : ¬ ((pre ++ (encodeRecord hts r ++ (encodeIndex hts rs ++ tail))).length
        ≤ pre.length) := by
      simp only [List.length_append]; omega
    have hpr := parse_record_encode hts pre (encodeIndex hts rs ++ tail) r hwfr
    simp only [parse_entries, if_neg hlen, hpr]
    have hassoc : pre ++ (encodeRecord hts r ++ (encodeIndex hts rs ++ tail))
        = (pre ++ encodeRecord hts r) ++ (encodeIndex hts rs ++ tail) := by
      simp
    have hpre2 : pre.length + (encodeRecord hts r).length
        = (pre ++ encodeRecord hts r).length := by simp
    rw [hassoc, hpre2]
    have := ih m (pre ++ encodeRecord hts r) tail (step_off dp off r.size) hwfs
    rw [this]
    simp only [entriesOf, List.cons_append, off_after]
    have hlen2 : (pre ++ encodeRecord hts r).length + (encodeIndex hts rs).length
        = pre.length + (encodeIndex hts (r :: rs)).length := by
      simp [encodeIndex]; omega
    rw [hlen2]

/-- Parsing any positive count starting at the head of a truncated tail
emits nothing: the loop hits one of its `break`s before producing an
entry. -/
lemma parse_entries_truncTail (hts dp : Bool) (pre tail : List Nat) (m off : Nat)
    (htr : truncTail hts tail = true) :
    parse_entries hts dp (pre ++ tail) m pre.length off = [] := by
  cases m with
  | zero => rfl
  | succ n =>
    by_cases hnil : tail = []
    · subst hnil
      have hle : (pre ++ ([] : List Nat)).length ≤ pre.length := by simp
      simp [parse_entries, hle]
    · have ht0 : tail.length ≠ 0 := by
        simpa [List.length_eq_zero] using hnil
      have hlen1 : ¬ ((pre ++ tail).length ≤ pre.length) := by
        simp only [List.length_append]; omega
      have hdrop : (pre ++ tail).drop pre.length = tail := List.drop_left pre tail
      have hne : tail.isEmpty = false := by
        cases tail with
        | nil => exact absurd rfl hnil
        | cons a l => rfl
      cases hfz : findZeroIdx tail with
      | none =>
        have hfind : findZero (pre ++ tail) pre.length = none := by
          unfold findZero; rw [hdrop, hfz]; rfl
        simp only [parse_entries, if_neg hlen1, parse_record, hfind]
      | some i =>
        have hfind : findZero (pre ++ tail) pre.length = some (pre.length + i) := by
          unfold findZero; rw [hdrop, hfz]; rfl
        have h5or9 : tail.length < i + 5 ∨ (hts = true ∧ tail.length < i + 9) := by
          unfold truncTail at htr
          rw [hne, hfz] at htr
          simp only [Bool.false_or] at htr
          rcases Bool.or_eq_true_iff.mp htr with h | h
          · exact Or.inl (by simpa using h)
          · rcases Bool.and_eq_true_iff.mp h with ⟨h1, h2⟩
            exact Or.inr ⟨h1, by simpa using h2⟩
        simp only [parse_entries, if_neg hlen1, parse_record, hfind]
        by_cases h5 : pre.length + i + 1 + 4 > (pre ++ tail).length
        · rw [if_pos h5]
        · have h5' : ¬ tail.length < i + 5 := by
            simp only [List.length_append] at h5; omega
          obtain ⟨hhts, h9⟩ : hts = true ∧ tail.length < i + 9 := by
            rcases h5or9 with h | h
            · exact absurd h h5'
            · exact h
          subst hhts
          rw [if_neg h5, if_pos (show (true : Bool) = true from rfl),
            if_pos (show pre.length + i + 1 + 4 + 4 > (pre ++ tail).length by
              simp only [List.length_append]; omega)]

/-- The first entry the loop emits carries the offset the loop started
with. -/
lemma parse_entries_head_offset (hts dp : Bool) (d : List Nat) (n pos off : Nat) :
    ∀ e ∈ (parse_entries hts dp d n pos off).head?, e.offset = off := by
  cases n with
  | zero => simp [parse_entries]
  | succ n =>
    simp only [parse_entries]
    split
    · simp
    · cases hpr : parse_record hts d pos with
      | none => simp
      | some v =>
        obtain ⟨p, s, t, q⟩ := v
        simp

/-- Consecutive parsed entries satisfy the running-offset law. -/
lemma parse_entries_chain (hts dp : Bool) (d : List Nat) (n : Nat) :
    ∀ (pos off : Nat),
      List.Chain' (fun a b => b.offset = step_off dp a.offset a.size)
        (parse_entries hts dp d n pos off) := by
  induction n with
  | zero => intro pos off; simp [parse_entries]
  | succ n ih =>
    intro pos off
    simp only [parse_entries]
    split
    · simp
    · cases hpr : parse_record hts d pos with
      | none => simp
      | some v =>
        obtain ⟨p, s, t, q⟩ := v
        rw [List.chain'_cons']
        constructor
        · intro y hy
          exact parse_entries_head_offset hts dp d n q (step_off dp off s) y hy
        · exact ih q (step_off dp off s)

/-- A successful `parse_record` leaves the cursor within the index bytes:
every field of the record was read in full. -/
lemma parse_record_pos_le (hts : Bool) (d : List Nat) (pos : Nat)
    (p : List Nat) (s : Nat) (t : Option Nat) (q : Nat)
    (h : parse_record hts d pos = some (p, s, t, q)) : q ≤ d.length := by
  unfold parse_record at h
  split at h
  · exact absurd h (by simp)
  · simp only [] at h
    split_ifs at h
    all_goals
      first
        | exact Option.noConfusion h
        | (simp only [Option.some.injEq, Prod.mk.injEq] at h; omega)

/-- Every entry the loop emits stems from a record that `parse_record`
decoded in full, and the loop emits at most `n` entries. -/
lemma parse_entries_sound (hts dp : Bool) (d : List Nat) (n : Nat) :
    ∀ (pos off : Nat),
      (parse_entries hts dp d n pos off).length ≤ n ∧
      ∀ e ∈ parse_entries hts dp d n pos off, ∃ p q,
        parse_record hts d p = some (e.path, e.size, e.timestamp, q) ∧
        q ≤ d.length := by
  induction n with
  | zero => intro pos off; simp [parse_entries]
  | succ n ih =>
    intro pos off
    simp only [parse_entries]
    split
    · simp
    · cases hpr : parse_record hts d pos with
      | none => simp
      | some v =>
        obtain ⟨p, s, t, q⟩ := v
        obtain ⟨ihlen, ihmem⟩ := ih q (step_off dp off s)
        constructor
        · simpa using ihlen
        · intro e he
          rcases List.mem_cons.mp he with he | he
          · subst he
            exact ⟨pos, q, hpr, parse_record_pos_le hts d pos p s t q hpr⟩
          · exact ihmem e he

lemma step_off_eq (dp : Bool) (off s : Nat) :
    step_off dp off s = off + pad_size dp s := by
  cases dp <;> simp [step_off, pad_size]

lemma step_off_le (dp : Bool) (off s : Nat) : off ≤ step_off dp off s := by
  cases dp <;> simp [step_off]

lemma entriesOf_length (hts dp : Bool) (recs : List MemberRec) :
    ∀ off, (entriesOf hts dp recs off).length = recs.length := by
  induction recs with
  | nil => intro off; rfl
  | cons r rs ih => intro off; simp [entriesOf, ih]

lemma entriesOf_map_path (hts dp : Bool) (recs : List MemberRec) :
    ∀ off, (entriesOf hts dp recs off).map (fun e => e.path)
      = recs.map (fun r => utf8DecodeIgnore r.path) := by
  induction recs with
  | nil => intro off; rfl
  | cons r rs ih => intro off; simp [entriesOf, ih]

lemma entriesOf_map_size (hts dp : Bool) (recs : List MemberRec) :
    ∀ off, (entriesOf hts dp recs off).map (fun e => e.size)
      = recs.map (fun r => r.size) := by
  induction recs with
  | nil => intro off; rfl
  | cons r rs ih => intro off; simp [entriesOf, ih]

lemma entriesOf_head_offset (hts dp : Bool) (recs : List MemberRec) (off : Nat) :
    ∀ e ∈ (entriesOf hts dp recs off).head?, e.offset = off := by
  cases recs with
  | nil => simp [entriesOf]
  | cons r rs => simp [entriesOf]

lemma entriesOf_chain_le (hts dp : Bool) (recs : List MemberRec) :
    ∀ off, List.Chain' (fun a b => a.offset ≤ b.offset)
      (entriesOf hts dp recs off) := by
  induction recs with
  | nil => intro off; simp [entriesOf]
  | cons r rs ih =>
    intro off
    simp only [entriesOf]
    rw [List.chain'_cons']
    refine ⟨?_, ih _⟩
    intro y hy
    have hy0 := entriesOf_head_offset hts dp rs (step_off dp off r.size) y hy
    rw [hy0]
    exact step_off_le dp off r.size

lemma entriesOf_getLast (hts dp : Bool) (recs : List MemberRec) (hne : recs ≠ []) :
    ∀ off, ∃ e, (entriesOf hts dp recs off).getLast? = some e ∧
      e.offset + pad_size dp e.size = off_after dp off recs := by
  induction recs with
  | nil => exact absurd rfl hne
  | cons r rs ih =>
    intro off
    cases rs with
    | nil =>
      refine ⟨PackFileEntry.mk (utf8DecodeIgnore r.path) r.size off
          (if hts then some r.ts else none), rfl, ?_⟩
      rw [show off_after dp off [r] = step_off dp off r.size from rfl, step_off_eq]
    | cons r2 rs2 =>
      obtain ⟨e, he, hoff⟩ := ih (by simp) (step_off dp off r.size)
      refine ⟨e, ?_, ?_⟩
      · rw [show entriesOf hts dp (r :: r2 :: rs2) off
            = _ :: entriesOf hts dp (r2 :: rs2) (step_off dp off r.size) from rfl]
        rw [show entriesOf hts dp (r2 :: rs2) (step_off dp off r.size)
            = _ :: entriesOf hts dp rs2 (step_off dp (step_off dp off r.size) r2.size)
            from rfl] at he ⊢
        rw [List.getLast?_cons_cons]
        exact he
      · rw [hoff]
        rfl

lemma findZeroIdx_spec (l : List Nat) :
    ∀ i, findZeroIdx l = some i →
      i < l.length ∧ l.getD i 1 = 0 ∧ ∀ b ∈ l.take i, b ≠ 0 := by
  induction l with
  | nil => intro i h; exact absurd h (by simp [findZeroIdx])
  | cons b bs ih =>
    intro i h
    by_cases hb : b = 0
    · subst hb
      simp [findZeroIdx] at h
      subst h
      simp
    · simp only [findZeroIdx, if_neg hb] at h
      cases hfz : findZeroIdx bs with
      | none => rw [hfz] at h; exact absurd h (by simp)
      | some j =>
        rw [hfz] at h
        simp at h
        subst h
        obtain ⟨hlt, hz, hno⟩ := ih j hfz
        refine ⟨?_, ?_, ?_⟩
        · simp only [List.length_cons]; omega
        · rw [List.getD_cons_succ]; exact hz
        · intro x hx
          rw [List.take_succ_cons] at hx
          rcases List.mem_cons.mp hx with hx | hx
          · subst hx; exact hb
          · exact hno x hx

lemma lookup_addEntryStats (m : List (List Nat × ExtStats)) (key k : List Nat) (sz : Nat) :
    lookup_ext k (addEntryStats m key sz)
      = if k = key then
          (match lookup_ext k m with
           | none => some (ExtStats.mk 1 sz)
           | some st => some (ExtStats.mk (st.count + 1) (st.size + sz)))
        else lookup_ext k m := by
  induction m with
  | nil =>
    by_cases hk : k = key
    · subst hk; simp [addEntryStats, lookup_ext]
    · have hk2 : ¬ key = k := fun hkk => hk hkk.symm
      simp [addEntryStats, lookup_ext, hk, hk2]
  | cons p rest ih =>
    obtain ⟨k2, st⟩ := p
    simp only [addEntryStats]
    by_cases h2 : k2 = key
    · rw [if_pos h2]
      simp only [lookup_ext]
      by_cases hk : k2 = k
      · have hkey : k = key := by rw [← hk, h2]
        rw [if_pos hk, if_pos hkey, if_pos hk]
      · have hkey : ¬ k = key := fun hkk => hk (by rw [h2, hkk])
        rw [if_neg hk, if_neg hkey, if_neg hk]
    · rw [if_neg h2]
      simp only [lookup_ext]
      by_cases hk : k2 = k
      · have hkey : ¬ k = key := fun hkk => h2 (by rw [hk, hkk])
        rw [if_pos hk, if_neg hkey, if_pos hk]
      · rw [if_neg hk, ih, if_neg hk]

lemma fold_pair_fst (l : List PackFileEntry) :
    ∀ (m : List (List Nat × ExtStats)) (t : Nat),
      (l.foldl (fun acc e => (addEntryStats acc.1 (ext_key e) e.size, acc.2 + e.size))
        (m, t)).1
        = l.foldl (fun m2 e => addEntryStats m2 (ext_key e) e.size) m := by
  induction l with
  | nil => intro m t; rfl
  | cons e l ih => intro m t; simp only [List.foldl_cons]; exact ih _ _

lemma lookup_foldl (l : List PackFileEntry) :
    ∀ (m : List (List Nat × ExtStats)) (k : List Nat),
      lookup_ext k (l.foldl (fun m2 e => addEntryStats m2 (ext_key e) e.size) m)
        = match lookup_ext k m with
          | none =>
            if group_count k l = 0 then none
            else some (ExtStats.mk (group_count k l) (group_size k l))
          | some st =>
            some (ExtStats.mk (st.count + group_count k l)
              (st.size + group_size k l)) := by
  induction l with
  | nil =>
    intro m k
    simp only [List.foldl_nil, group_count, group_size, List.filter_nil,
      List.length_nil, List.map_nil, List.sum_nil]
    cases lookup_ext k m <;> simp
  | cons e l ih =>
    intro m k
    simp only [List.foldl_cons]
    rw [ih, lookup_addEntryStats]
    by_cases hk : k = ext_key e
    · rw [if_pos hk]
      have hce : (decide (ext_key e = k)) = true := by simp [hk]
      have hgc : group_count k (e :: l) = group_count k l + 1 := by
        simp [group_count, List.filter_cons, hce]
      have hgs : group_size k (e :: l) = e.size + group_size k l := by
        simp [group_size, List.filter_cons, hce]
      cases hm : lookup_ext k m with
      | none =>
        simp only [hgc, hgs]
        rw [if_neg (show ¬ (group_count k l + 1 = 0) by omega)]
        simp only [Option.some.injEq, ExtStats.mk.injEq]
        exact ⟨by omega, trivial⟩
      | some st =>
        simp only [hgc, hgs, Option.some.injEq, ExtStats.mk.injEq]
        omega
    · rw [if_neg hk]
      have hce : (decide (ext_key e = k)) = false := by
        simp only [decide_eq_false_iff_not]
        exact fun hkk => hk hkk.symm
      have hgc : group_count k (e :: l) = group_count k l := by
        simp [group_count, List.filter_cons, hce]
      have hgs : group_size k (e :: l) = group_size k l := by
        simp [group_size, List.filter_cons, hce]
      rw [hgc, hgs]

lemma and_fifteen (x : Nat) : x &&& 15 = x % 16 := by
  have h := Nat.and_pow_two_sub_one_eq_mod x 4
  norm_num at h
  exact h

lemma masked_flag (x m k : Nat) (hm : m.testBit k = true) :
    ((x &&& m) &&& 2 ^ k != 0) = x.testBit k := by
  rw [Nat.and_two_pow, Nat.testBit_land, hm, Bool.and_true]
  cases hx : x.testBit k <;> simp

lemma take32_slice (file : List Nat) (k : Nat) (hk : k + 4 ≤ 32) :
    ((file.take 32).drop k).take 4 = (file.drop k).take 4 := by
  rw [List.drop_take, List.take_take, Nat.min_eq_left (by omega)]

lemma read_header_take32 (file : List Nat) :
    read_header (file.take 32) = read_header file := by
  unfold read_header
  rw [List.take_take]
  norm_num

lemma read_header_none_iff (file : List Nat) :
    read_header file = none ↔ file.length < 32 ∨ file.take 4 ≠ PFH5magic := by
  unfold read_header
  have htake4 : (file.take 32).take 4 = file.take 4 := by
    rw [List.take_take, Nat.min_eq_left (by omega)]
  by_cases h1 : (file.take 32).length < 32
  · rw [if_pos h1]
    simp only [List.length_take] at h1
    constructor
    · intro _
      left
      omega
    · intro _
      rfl
  · rw [if_neg h1]
    simp only [List.length_take] at h1
    have hlen : ¬ file.length < 32 := by omega
    by_cases h2 : (file.take 32).take 4 ≠ PFH5magic
    · rw [if_pos h2, htake4] at *
      simp only [ne_eq, htake4] at h2
      simp [h2, hlen]
    · rw [if_neg h2]
      simp only [ne_eq, htake4, not_not] at h2
      simp [h2, hlen]

lemma getD_drop_one (l : List Nat) (m n : Nat) :
    (l.drop m).getD n 1 = l.getD (m + n) 1 := by
  simp [List.getD_eq_getElem?_getD, List.getElem?_drop]

/-! ### Claim theorems -/

/-- C2: for every decoded descriptor sequence, the first descriptor's
`dataOffset` is 0, and each next descriptor's `dataOffset` is the previous
one's `dataOffset` plus its size — rounded up to the next multiple of 8 when
the data-padded flag is set (a size already a multiple of 8 is unchanged,
since `((s + 7) / 8) * 8 = s` for `8 ∣ s`). -/
theorem offsets_cumulative (h : Header) (file : List Nat)
    (henc : h.index_encrypted = false) :
    (∀ e ∈ (read_file_index h file).entries.head?, e.offset = 0) ∧
    List.Chain' (fun a b => b.offset = a.offset
        + (if h.data_padded then ((a.size + 7) / 8) * 8 else a.size))
      (read_file_index h file).entries ∧
    (∀ s : Nat, 8 ∣ s → ((s + 7) / 8) * 8 = s) := by
  have hent : (read_file_index h file).entries
      = parse_entries h.has_timestamps h.data_padded (file_index_data h file)
          h.file_index_count 0 0 := by
    simp [read_file_index, henc]
  refine ⟨?_, ?_, ?_⟩
  · rw [hent]
    exact parse_entries_head_offset _ _ _ _ _ _
  · rw [hent]
    refine List.Chain'.imp ?_
      (parse_entries_chain h.has_timestamps h.data_padded (file_index_data h file)
        h.file_index_count 0 0)
    intro a b hab
    rw [hab]
    cases hdp : h.data_padded <;> simp [step_off, hdp]
  · intro s hs
    omega

/-- C2 witness: in the spec's concrete two-member archive, consecutive
decoded descriptors satisfy the offset law. -/
theorem offsets_cumulative_witness :
    List.Chain' (fun a b => b.offset = a.offset
        + (if wHeader.data_padded then ((a.size + 7) / 8) * 8 else a.size))
      (read_file_index wHeader wFile).entries :=
  (offsets_cumulative wHeader wFile (by decide)).2.1

/-- C3: for a valid archive — header decodes, index not encrypted, the index
bytes are exactly the encoding of `memberCount` well-formed records, and the
declared data fits in the file — decoding yields exactly `memberCount`
descriptors in record order (same paths and sizes, in order), with
non-decreasing `dataOffset`s, and the last descriptor's `dataOffset + size`
(rounded per the padding rule), taken from the start of the data region,
does not exceed the file's physical size. -/
theorem valid_archive_decode (file : List Nat) (h : Header) (recs : List MemberRec)
    (_hh : read_header file = some h)
    (henc : h.index_encrypted = false)
    (hwf : ∀ r ∈ recs, WfRec r)
    (hcount : recs.length = h.file_index_count)
    (hidx : file_index_data h file = encodeIndex h.has_timestamps recs)
    (hdata : header_size h + h.pf_index_size + h.file_index_size
        + off_after h.data_padded 0 recs ≤ file.length) :
    (read_file_index h file).entries
      = entriesOf h.has_timestamps h.data_padded recs 0 ∧
    (read_file_index h file).entries.length = h.file_index_count ∧
    (read_file_index h file).entries.map (fun e => e.path)
      = recs.map (fun r => utf8DecodeIgnore r.path) ∧
    (read_file_index h file).entries.map (fun e => e.size)
      = recs.map (fun r => r.size) ∧
    List.Chain' (fun a b => a.offset ≤ b.offset) (read_file_index h file).entries ∧
    (∀ e ∈ (read_file_index h file).entries.getLast?,
      (read_file_index h file).file_data_offset + e.offset
        + pad_size h.data_padded e.size ≤ file.length) := by
  have hentries : (read_file_index h file).entries
      = entriesOf h.has_timestamps h.data_padded recs 0 := by
    simp only [read_file_index, henc, Bool.false_eq_true, if_false]
    rw [hidx, ← hcount]
    have hmain := parse_entries_encode h.has_timestamps h.data_padded recs 0 [] [] 0 hwf
    simp only [List.nil_append, List.append_nil, Nat.add_zero, List.length_nil,
      Nat.zero_add] at hmain
    rw [hmain]
    simp [parse_entries]
  refine ⟨hentries, ?_, ?_, ?_, ?_, ?_⟩
  · rw [hentries, entriesOf_length, hcount]
  · rw [hentries, entriesOf_map_path]
  · rw [hentries, entriesOf_map_size]
  · rw [hentries]
    exact entriesOf_chain_le _ _ _ _
  · intro e he
    rw [hentries] at he
    have hne : recs ≠ [] := by
      intro hnil
      subst hnil
      simp [entriesOf] at he
    obtain ⟨e0, he0, hoff⟩ :=
      entriesOf_getLast h.has_timestamps h.data_padded recs hne 0
    rw [he0] at he
    simp only [Option.mem_def, Option.some.injEq] at he
    subst he
    have hfdo : (read_file_index h file).file_data_offset
        = header_size h + h.pf_index_size + h.file_index_size := by
      simp [read_file_index, henc]
    rw [hfdo]
    omega

/-- C3 witness: the spec's concrete two-member archive decodes to the two
expected descriptors, and the count matches the header. -/
theorem valid_archive_decode_witness :
    (read_file_index wHeader wFile).entries
      = entriesOf wHeader.has_timestamps wHeader.data_padded wRecs 0 ∧
    (read_file_index wHeader wFile).entries.length = wHeader.file_index_count :=
  ⟨(valid_archive_decode wFile wHeader wRecs (by decide) (by decide) (by decide)
      (by decide) (by decide) (by decide)).1,
   (valid_archive_decode wFile wHeader wRecs (by decide) (by decide) (by decide)
      (by decide) (by decide) (by decide)).2.1⟩

/-- C1 (amended): when the index bytes are the encoding of some complete
records followed by a truncated tail (no zero terminator, or fewer than 4
bytes for the size — or, with timestamps, the timestamp — field) and the
header declares more records than were encoded, `read_file_index` does not
fail: it returns exactly the descriptors of the completely decoded records —
a partial list — and no `TruncationError` is raised (the embedded decoder is
total). -/
theorem index_truncation_partial_list (h : Header) (file : List Nat)
    (recs : List MemberRec) (tail : List Nat)
    (henc : h.index_encrypted = false)
    (hwf : ∀ r ∈ recs, WfRec r)
    (hidx : file_index_data h file = encodeIndex h.has_timestamps recs ++ tail)
    (htr : truncTail h.has_timestamps tail = true)
    (hcount : recs.length < h.file_index_count) :
    (read_file_index h file).entries
      = entriesOf h.has_timestamps h.data_padded recs 0 := by
  have hent : (read_file_index h file).entries
      = parse_entries h.has_timestamps h.data_padded (file_index_data h file)
          h.file_index_count 0 0 := by
    simp [read_file_index, henc]
  rw [hent, hidx]
  obtain ⟨m, hm⟩ : ∃ m, h.file_index_count = recs.length + m :=
    ⟨h.file_index_count - recs.length, by omega⟩
  rw [hm]
  have hmain := parse_entries_encode h.has_timestamps h.data_padded recs m [] tail 0 hwf
  simp only [List.nil_append, List.length_nil, Nat.zero_add] at hmain
  rw [hmain]
  rw [parse_entries_truncTail h.has_timestamps h.data_padded
    (encodeIndex h.has_timestamps recs) tail m
    (off_after h.data_padded 0 recs) htr]
  simp

/-- C1 counterexample: an archive declaring 2 members whose index ends after
`b\0` (the second record's size field is missing) decodes to the one-element
partial list `[a]` — a partial descriptor list is returned and no error is
raised, contradicting the claim that decoding fails with `TruncationError`
and returns no partial list. -/
theorem index_truncation_counterexample :
    read_header c1File = some c1Header ∧
    c1Header.file_index_count = 2 ∧
    (read_file_index c1Header c1File).entries
      = [PackFileEntry.mk [97] 3 0 none] := by decide

/-- C1 witness: the truncated archive `c1File` returns exactly the complete
first record's descriptor. -/
theorem index_truncation_partial_list_witness :
    (read_file_index c1Header c1File).entries
      = entriesOf c1Header.has_timestamps c1Header.data_padded
          [MemberRec.mk [97] 3 0] 0 :=
  index_truncation_partial_list c1Header c1File [MemberRec.mk [97] 3 0] [98, 0]
    (by decide) (by decide) (by decide) (by decide) (by decide)

/-- C4 (amended): `extract_file` performs a positioned read at
`file_data_offset + entry.offset` and returns the first `entry.size` bytes
found there; when the file holds at least that many bytes past the position
the result has exactly `entry.size` bytes, but when the file is shorter the
result is the whole remaining suffix — a short read, with no `IOError` and
no zero padding. -/
theorem extract_positioned_read (fdo : Nat) (file : List Nat)
    (entry : PackFileEntry) :
    extract_file fdo file entry = (file.drop (fdo + entry.offset)).take entry.size ∧
    (fdo + entry.offset + entry.size ≤ file.length →
      (extract_file fdo file entry).length = entry.size) ∧
    (file.length < fdo + entry.offset + entry.size →
      extract_file fdo file entry = file.drop (fdo + entry.offset) ∧
      (extract_file fdo file entry).length
        = file.length - (fdo + entry.offset)) := by
  refine ⟨rfl, ?_, ?_⟩
  · intro hle
    simp only [extract_file, List.length_take, List.length_drop]
    omega
  · intro hlt
    constructor
    · simp only [extract_file]
      apply List.take_of_length_le
      simp only [List.length_drop]
      omega
    · simp only [extract_file, List.length_take, List.length_drop]
      omega

/-- C4 witness: extracting `b.txt` (size 2 at offset 3) from the spec's
concrete archive returns exactly 2 bytes. -/
theorem extract_positioned_read_witness :
    (extract_file 52 wFile (PackFileEntry.mk [98, 46, 116, 120, 116] 2 3 none)).length
      = 2 :=
  (extract_positioned_read 52 wFile
    (PackFileEntry.mk [98, 46, 116, 120, 116] 2 3 none)).2.1 (by decide)

/-- C4 counterexample: extracting a descriptor of size 5 from a 2-byte file
returns the 2 remaining bytes — a shorter result, not an `IOError` and not a
zero-padded buffer — contradicting the claim that a short read fails. -/
theorem extract_short_read_counterexample :
    extract_file 0 [1, 2] (PackFileEntry.mk [] 5 0 none) = [1, 2] ∧
    (extract_file 0 [1, 2] (PackFileEntry.mk [] 5 0 none)).length = 2 ∧
    (2 : Nat) ≠ 5 := by decide

/-- C5: when the header's index-encrypted flag is set, index decoding is not
attempted: `read_file_index` returns normally (the embedding is total — no
fatal error) with an empty descriptor list, after signalling the
encrypted-index warning (the printed `UnsupportedFeatureError` condition),
so the handle stays usable with zero members. -/
theorem encrypted_index_empty (h : Header) (file : List Nat)
    (henc : h.index_encrypted = true) :
    read_file_index h file = IndexResult.mk [] true 0 := by
  simp [read_file_index, henc]

/-- C5 witness: an archive whose bitmask has bit 15 set decodes to a header
with `index_encrypted` and yields the empty, warned index result. -/
theorem encrypted_index_empty_witness :
    read_header c5File = some c5Header ∧
    read_file_index c5Header c5File = IndexResult.mk [] true 0 :=
  ⟨by decide, encrypted_index_empty c5Header c5File (by decide)⟩

/-- C7: the data region starts at `header_size + pf_index_size +
file_index_size`, where the header occupies 32 bytes — or 32+20 when the
extended-header flag is set — and index decoding reads the member index from
the bytes found after skipping exactly `header_size + pf_index_size`
bytes. -/
theorem data_region_layout (h : Header) (file : List Nat)
    (henc : h.index_encrypted = false) :
    header_size h = (if h.has_extended_header then 32 + 20 else 32) ∧
    index_skip h = header_size h + h.pf_index_size ∧
    (read_file_index h file).file_data_offset
      = header_size h + h.pf_index_size + h.file_index_size ∧
    (read_file_index h file).entries
      = parse_entries h.has_timestamps h.data_padded
          ((file.drop (header_size h + h.pf_index_size)).take h.file_index_size)
          h.file_index_count 0 0 := by
  refine ⟨rfl, rfl, ?_, ?_⟩ <;>
    simp [read_file_index, henc, file_index_data, index_skip]

/-- C7 witness: in the spec's concrete archive the data region starts at
`header_size + pf_index_size + file_index_size`. -/
theorem data_region_layout_witness :
    (read_file_index wHeader wFile).file_data_offset
      = header_size wHeader + wHeader.pf_index_size + wHeader.file_index_size :=
  (data_region_layout wHeader wFile (by decide)).2.2.1

/-- C10: with the encrypted flag clear, `read_file_index` returns normally
on every input (the embedded parser is a total function), yields at most
`memberCount` descriptors, and every returned descriptor stems from a record
that `parse_record` decoded completely (zero-terminated path, full 4-byte
size and, when flagged, full 4-byte timestamp), ending within the index
bytes; no partially read record is emitted. -/
theorem read_index_safe (h : Header) (file : List Nat)
    (henc : h.index_encrypted = false) :
    (read_file_index h file).entries.length ≤ h.file_index_count ∧
    ∀ e ∈ (read_file_index h file).entries, ∃ pos q,
      parse_record h.has_timestamps (file_index_data h file) pos
        = some (e.path, e.size, e.timestamp, q) ∧
      q ≤ (file_index_data h file).length := by
  have hent : (read_file_index h file).entries
      = parse_entries h.has_timestamps h.data_padded (file_index_data h file)
          h.file_index_count 0 0 := by
    simp [read_file_index, henc]
  rw [hent]
  exact parse_entries_sound h.has_timestamps h.data_padded (file_index_data h file)
    h.file_index_count 0 0

/-- C10 witness: on the truncated archive `c1File` the decoder still returns
at most the declared number of descriptors. -/
theorem read_index_safe_witness :
    (read_file_index c1Header c1File).entries.length ≤ c1Header.file_index_count :=
  (read_index_safe c1Header c1File (by decide)).1

/-- C6: `read_header` fails exactly when fewer than 32 bytes are supplied or
the 4-byte magic is not `PFH5`; it depends only on the first 32 bytes;
otherwise the seven remaining fields are the 4-byte little-endian integers
at offsets 4, 8, 12, 16, 20, 24 and 28, the archive kind is the bitmask's
low nibble (`% 16`), and the decomposed flags are exactly bits 20
(extended header), 15 (index encrypted), 10 (timestamps in index) and 4
(data padded) of the bitmask. -/
theorem header_decode_contract (file : List Nat) :
    (read_header file = none ↔ file.length < 32 ∨ file.take 4 ≠ PFH5magic) ∧
    (∀ h : Header, read_header file = some h →
      read_header (file.take 32) = some h ∧
      h.preamble = file.take 4 ∧
      h.type_bitmask = le32 ((file.drop 4).take 4) ∧
      h.pf_index_count = le32 ((file.drop 8).take 4) ∧
      h.pf_index_size = le32 ((file.drop 12).take 4) ∧
      h.file_index_count = le32 ((file.drop 16).take 4) ∧
      h.file_index_size = le32 ((file.drop 20).take 4) ∧
      h.timestamp = le32 ((file.drop 24).take 4) ∧
      h.signature_pos = le32 ((file.drop 28).take 4) ∧
      h.pack_type = h.type_bitmask % 16 ∧
      h.has_extended_header = h.type_bitmask.testBit 20 ∧
      h.index_encrypted = h.type_bitmask.testBit 15 ∧
      h.has_timestamps = h.type_bitmask.testBit 10 ∧
      h.data_padded = h.type_bitmask.testBit 4) := by
  refine ⟨read_header_none_iff file, ?_⟩
  intro h hh
  have hsome := hh
  unfold read_header at hh
  simp only [] at hh
  by_cases h1 : (file.take 32).length < 32
  · rw [if_pos h1] at hh
    exact absurd hh (by simp)
  · rw [if_neg h1] at hh
    by_cases h2 : (file.take 32).take 4 ≠ PFH5magic
    · rw [if_pos h2] at hh
      exact absurd hh (by simp)
    · rw [if_neg h2] at hh
      simp only [Option.some.injEq] at hh
      subst hh
      refine ⟨?_, ?_, ?_, ?_, ?_, ?_, ?_, ?_, ?_, ?_, ?_, ?_, ?_, ?_⟩
      · rw [read_header_take32]
        exact hsome
      · show (file.take 32).take 4 = file.take 4
        rw [List.take_take, Nat.min_eq_left (by omega)]
      · show le32 (((file.take 32).drop 4).take 4) = le32 ((file.drop 4).take 4)
        rw [take32_slice file 4 (by omega)]
      · show le32 (((file.take 32).drop 8).take 4) = le32 ((file.drop 8).take 4)
        rw [take32_slice file 8 (by omega)]
      · show le32 (((file.take 32).drop 12).take 4) = le32 ((file.drop 12).take 4)
        rw [take32_slice file 12 (by omega)]
      · show le32 (((file.take 32).drop 16).take 4) = le32 ((file.drop 16).take 4)
        rw [take32_slice file 16 (by omega)]
      · show le32 (((file.take 32).drop 20).take 4) = le32 ((file.drop 20).take 4)
        rw [take32_slice file 20 (by omega)]
      · show le32 (((file.take 32).drop 24).take 4) = le32 ((file.drop 24).take 4)
        rw [take32_slice file 24 (by omega)]
      · show le32 (((file.take 32).drop 28).take 4) = le32 ((file.drop 28).take 4)
        rw [take32_slice file 28 (by omega)]
      · show le32 (((file.take 32).drop 4).take 4) &&& 15
            = le32 (((file.take 32).drop 4).take 4) % 16
        exact and_fifteen _
      · show ((le32 (((file.take 32).drop 4).take 4) &&& 4294967280)
            &&& FLAG_EXTENDED_HEADER != 0)
            = (le32 (((file.take 32).drop 4).take 4)).testBit 20
        rw [show FLAG_EXTENDED_HEADER = 2 ^ 20 by norm_num [FLAG_EXTENDED_HEADER]]
        exact masked_flag _ _ _ (by decide)
      · show ((le32 (((file.take 32).drop 4).take 4) &&& 4294967280)
            &&& FLAG_INDEX_ENCRYPTED != 0)
            = (le32 (((file.take 32).drop 4).take 4)).testBit 15
        rw [show FLAG_INDEX_ENCRYPTED = 2 ^ 15 by norm_num [FLAG_INDEX_ENCRYPTED]]
        exact masked_flag _ _ _ (by decide)
      · show ((le32 (((file.take 32).drop 4).take 4) &&& 4294967280)
            &&& FLAG_TIMESTAMP_IN_INDEX != 0)
            = (le32 (((file.take 32).drop 4).take 4)).testBit 10
        rw [show FLAG_TIMESTAMP_IN_INDEX = 2 ^ 10 by
          norm_num [FLAG_TIMESTAMP_IN_INDEX]]
        exact masked_flag _ _ _ (by decide)
      · show ((le32 (((file.take 32).drop 4).take 4) &&& 4294967280)
            &&& FLAG_DATA_PADDED != 0)
            = (le32 (((file.take 32).drop 4).take 4)).testBit 4
        rw [show FLAG_DATA_PADDED = 2 ^ 4 by norm_num [FLAG_DATA_PADDED]]
        exact masked_flag _ _ _ (by decide)

/-- C6 witness: the spec's concrete archive header decodes, only the first
32 bytes matter, and the preamble is its first four bytes. -/
theorem header_decode_contract_witness :
    read_header (wFile.take 32) = some wHeader ∧
    wHeader.preamble = wFile.take 4 := by
  have hc := (header_decode_contract wFile).2 wHeader (by decide)
  exact ⟨hc.1, hc.2.1⟩

/-- C8 (amended): a record's path is the byte span from the cursor up to
(and excluding) the next zero byte — the span itself contains no zero and
the terminator byte is zero — decoded as UTF-8 with invalid byte sequences
dropped (`errors='ignore'`), so records with non-UTF-8 path bytes still
decode to a path and never cause a decode failure. -/
theorem path_span_decode_ignore (hts : Bool) (d : List Nat) (pos pe : Nat)
    (p : List Nat) (s : Nat) (t : Option Nat) (q : Nat)
    (hz : findZero d pos = some pe)
    (h : parse_record hts d pos = some (p, s, t, q)) :
    p = utf8DecodeIgnore ((d.drop pos).take (pe - pos)) ∧
    (∀ b ∈ (d.drop pos).take (pe - pos), b ≠ 0) ∧
    d.getD pe 1 = 0 := by
  have hmap : ∃ i, findZeroIdx (d.drop pos) = some i ∧ pe = pos + i := by
    unfold findZero at hz
    cases hfz : findZeroIdx (d.drop pos) with
    | none => rw [hfz] at hz; exact absurd hz (by simp)
    | some i =>
      rw [hfz] at hz
      simp at hz
      exact ⟨i, rfl, hz.symm⟩
  obtain ⟨i, hfz, hpe⟩ := hmap
  obtain ⟨hlt, hzero, hnz⟩ := findZeroIdx_spec (d.drop pos) i hfz
  have hspan : pe - pos = i := by omega
  refine ⟨?_, ?_, ?_⟩
  · unfold parse_record at h
    split at h
    · exact Option.noConfusion h
    · rename_i pe2 heq
      have hpe2 : pe2 = pe := by
        rw [heq] at hz
        exact Option.some.inj hz
      subst hpe2
      simp only [] at h
      split_ifs at h
      all_goals
        first
          | exact Option.noConfusion h
          | (simp only [Option.some.injEq, Prod.mk.injEq] at h
             exact h.1.symm)
  · rw [hspan]
    exact hnz
  · rw [hpe, ← getD_drop_one]
    exact hzero

/-- C8 witness: the record `FF 61 00 01 00 00 00` parses, and its path is
the span `FF 61` before the zero terminator decoded with invalid bytes
dropped. -/
theorem path_span_decode_ignore_witness :
    ([97] : List Nat)
      = utf8DecodeIgnore ((([255, 97, 0, 1, 0, 0, 0] : List Nat).drop 0).take (2 - 0)) ∧
    (∀ b ∈ (([255, 97, 0, 1, 0, 0, 0] : List Nat).drop 0).take (2 - 0), b ≠ 0) ∧
    ([255, 97, 0, 1, 0, 0, 0] : List Nat).getD 2 1 = 0 :=
  path_span_decode_ignore false [255, 97, 0, 1, 0, 0, 0] 0 2 [97] 1 none 7
    (by decide) (by decide)

/-- C8 counterexample: the archive whose single member has path bytes
`FF 61` decodes that path to `a` — the invalid byte `FF` is dropped, not
replaced: the spec-worded replacing decode yields `U+FFFD, a`, which differs
from the decoded path. -/
theorem path_utf8_replace_counterexample :
    read_header c8File = some c8Header ∧
    (read_file_index c8Header c8File).entries
      = [PackFileEntry.mk [97] 1 0 none] ∧
    utf8DecodeReplace [255, 97] = [65533, 97] ∧
    ([97] : List Nat) ≠ [65533, 97] := by decide

/-- C9: `get_file_info` groups entries by the lowercased filename suffix of
`path` (absent suffixes under the `.no_extension` sentinel): a key's stats
exist exactly when some entry has that key, the count is the number of such
entries and the size their summed sizes; the mapping is the same for any
permutation of the entries; and the empty input yields the empty mapping. -/
theorem summarize_by_suffix :
    (∀ (entries : List PackFileEntry) (k : List Nat),
      lookup_ext k (get_file_info entries).extensions
        = if group_count k entries = 0 then none
          else some (ExtStats.mk (group_count k entries) (group_size k entries))) ∧
    (∀ (l1 l2 : List PackFileEntry), l1.Perm l2 → ∀ k : List Nat,
      lookup_ext k (get_file_info l1).extensions
        = lookup_ext k (get_file_info l2).extensions) ∧
    (get_file_info []).extensions = [] := by
  have hchar : ∀ (entries : List PackFileEntry) (k : List Nat),
      lookup_ext k (get_file_info entries).extensions
        = if group_count k entries = 0 then none
          else some (ExtStats.mk (group_count k entries) (group_size k entries)) := by
    intro entries k
    have hfi : (get_file_info entries).extensions
        = entries.foldl (fun m2 e => addEntryStats m2 (ext_key e) e.size) [] := by
      simp only [get_file_info]
      exact fold_pair_fst entries [] 0
    rw [hfi, lookup_foldl]
    simp [lookup_ext]
  refine ⟨hchar, ?_, rfl⟩
  intro l1 l2 hperm k
  rw [hchar, hchar]
  have hperm2 := hperm.filter (fun e => decide (ext_key e = k))
  have hgc : group_count k l1 = group_count k l2 := by
    simp only [group_count]
    exact hperm2.length_eq
  have hgs : group_size k l1 = group_size k l2 := by
    simp only [group_size]
    exact (hperm2.map (fun e => e.size)).sum_eq
  rw [hgc, hgs]

/-- C9 witness: swapping `a.TXT` and `b.txt` leaves the `.txt` group's stats
unchanged. -/
theorem summarize_by_suffix_witness :
    lookup_ext [46, 116, 120, 116] (get_file_info [exInfoA, exInfoB]).extensions
      = lookup_ext [46, 116, 120, 116] (get_file_info [exInfoB, exInfoA]).extensions :=
  summarize_by_suffix.2.1 [exInfoA, exInfoB] [exInfoB, exInfoA]
    (List.Perm.swap exInfoB exInfoA []) [46, 116, 120, 116]

end PackReader
